import Mathlib

/-!
# Verification of the lightwalletd block store and Merkle sync engine

Shallow embedding of the core of the repository:

* `common/cache.go` — the `BlockCache` persistent block store (append-only
  checksum-protected log with offset index, reorg truncation and corruption
  recovery) and the generic `LRUCache`.
* `merkle` package — the `MerkleFrontier` tree (root computation, inclusion
  proofs) and the `PaginateDeltas` pagination of the incremental sync protocol.

Go machine integers (`int`, `int64`, `uint32`, `uint64`) are modelled as
`Int`/`Nat` with explicit wrap-around (`% 2^w`) at the conversion points the
source performs them.  Byte slices are `List Nat`.  Files are byte lists; the
append-only `os.File` writes of the source become list appends, `Truncate`
becomes `List.take`, and `ReadAt` becomes a guarded slice.  The `sync.RWMutex`
fields have no sequential content and are dropped; the asynchronous corruption
recovery spawned by `Get` is modelled as running to completion.
-/

set_option linter.unusedVariables false

/-! ## Go primitive conversions (`common/cache.go` uses these casts) -/

/-- Go's `uint64(h)` conversion of an `int`: two's-complement wrap into
`[0, 2^64)`. -/
def goUint64OfInt (i : Int) : Nat := (i % (2 ^ 64 : Nat)).toNat

/-- Go's `int(u)` conversion of a `uint64`: wrap into `[-2^63, 2^63)`. -/
def goIntOfUint64 (n : Nat) : Int :=
  let m : Nat := n % 2 ^ 64
  if m < 2 ^ 63 then (m : Int) else (m : Int) - 2 ^ 64

/-- `binary.LittleEndian.PutUint64`: eight little-endian bytes. -/
def uint64LE (n : Nat) : List Nat :=
  [n % 256, n / 2 ^ 8 % 256, n / 2 ^ 16 % 256, n / 2 ^ 24 % 256,
   n / 2 ^ 32 % 256, n / 2 ^ 40 % 256, n / 2 ^ 48 % 256, n / 2 ^ 56 % 256]

/-- Eight big-endian bytes, as produced by Go's `hash/fnv` `Sum`. -/
def uint64BE (n : Nat) : List Nat :=
  [n / 2 ^ 56 % 256, n / 2 ^ 48 % 256, n / 2 ^ 40 % 256, n / 2 ^ 32 % 256,
   n / 2 ^ 24 % 256, n / 2 ^ 16 % 256, n / 2 ^ 8 % 256, n % 256]

/-- `binary.LittleEndian.PutUint32`: four little-endian bytes. -/
def uint32LE (n : Nat) : List Nat :=
  [n % 256, n / 2 ^ 8 % 256, n / 2 ^ 16 % 256, n / 2 ^ 24 % 256]

/-- Little-endian decoding, inverse of `uint64LE` on eight bytes. -/
def fromLE (bs : List Nat) : Nat := bs.foldr (fun b acc => b + 256 * acc) 0

/-- Go's `copy(dst, src)` on byte slices: overwrite the first
`min |dst| |src|` entries of `dst` with those of `src`. -/
def goCopy (dst src : List Nat) : List Nat :=
  src.take (min dst.length src.length) ++ dst.drop (min dst.length src.length)

/-! ## FNV-1a 64-bit hash (`hash/fnv`), used for block checksums -/

/-- One FNV-1a step: xor in the byte, multiply by the FNV prime, mod 2^64. -/
def fnv64aStep (s b : Nat) : Nat := ((s ^^^ b) * 1099511628211) % 2 ^ 64

/-- FNV-1a 64-bit digest of a byte list (offset basis `cs := fnv.New64a()`,
then `cs.Write` of all bytes). -/
def fnv64a (bs : List Nat) : Nat := bs.foldl fnv64aStep 14695981039346656037

/-- `checksum(height, b)` from `common/cache.go`: the 8-byte FNV-1a digest of
the little-endian `uint64(height)` followed by the block bytes; `Sum(nil)`
serializes the digest big-endian. -/
def checksum (height : Int) (b : List Nat) : List Nat :=
  uint64BE (fnv64a (uint64LE (goUint64OfInt height) ++ b))

/-! ## Compact blocks and their wire encoding

`walletrpc.CompactBlock` is external protobuf-generated code; only its
`Height` (`uint64`) and `Hash` (`[]byte`) fields and the fact that
`proto.Marshal`/`proto.Unmarshal` round-trip are used by `common/cache.go`.
Modelled from the spec: the payload is an injective, length-prefixed
serialization of the height, the hash, and the remaining (opaque) fields. -/

structure CompactBlock where
  height : Nat
  hash : List Nat
  rest : List Nat
deriving DecidableEq, Repr

/-- The Go representation invariant of the protobuf struct: `Height` is a
`uint64` and `Hash` a (short) byte slice. -/
def CompactBlock.WF (b : CompactBlock) : Prop :=
  b.height < 2 ^ 64 ∧ b.hash.length < 2 ^ 64

instance (b : CompactBlock) : Decidable b.WF := by unfold CompactBlock.WF; infer_instance

/-- Models `proto.Marshal` (injective serialization). -/
def marshal (b : CompactBlock) : List Nat :=
  uint64LE (b.height % 2 ^ 64) ++ uint64LE (b.hash.length % 2 ^ 64) ++ b.hash ++ b.rest

/-- Models `proto.Unmarshal` (returns `none` on malformed input). -/
def unmarshal (bs : List Nat) : Option CompactBlock :=
  if bs.length < 16 then none
  else
    let height := fromLE (bs.take 8)
    let hlen := fromLE ((bs.drop 8).take 8)
    let body := bs.drop 16
    if body.length < hlen then none
    else some ⟨height, body.take hlen, body.drop hlen⟩

theorem fromLE_uint64LE (n : Nat) (h : n < 2 ^ 64) : fromLE (uint64LE n) = n := by
  simp only [uint64LE, fromLE, List.foldr]
  omega

theorem unmarshal_marshal (b : CompactBlock) (h : b.WF) : unmarshal (marshal b) = some b := by
  obtain ⟨h1, h2⟩ := h
  have e1 : b.height % 18446744073709551616 = b.height := Nat.mod_eq_of_lt (by omega)
  have e2 : b.hash.length % 18446744073709551616 = b.hash.length := Nat.mod_eq_of_lt (by omega)
  have l1 : (uint64LE b.height).length = 8 := rfl
  have l2 : (uint64LE b.hash.length).length = 8 := rfl
  have hsplit : marshal b =
      uint64LE b.height ++ (uint64LE b.hash.length ++ (b.hash ++ b.rest)) := by
    simp [marshal, e1, e2]
  have hsplit2 : marshal b =
      (uint64LE b.height ++ uint64LE b.hash.length) ++ (b.hash ++ b.rest) := by
    simp [marshal, e1, e2]
  have l12 : (uint64LE b.height ++ uint64LE b.hash.length).length = 16 := by
    simp [l1, l2]
  have hL : (marshal b).length = 16 + (b.hash.length + b.rest.length) := by
    rw [hsplit2]; simp [l1, l2]; omega
  have htake8 : (marshal b).take 8 = uint64LE b.height := by
    rw [hsplit, List.take_left' l1]
  have hdrop8 : (marshal b).drop 8 = uint64LE b.hash.length ++ (b.hash ++ b.rest) := by
    rw [hsplit, List.drop_left' l1]
  have hdrop16 : (marshal b).drop 16 = b.hash ++ b.rest := by
    rw [hsplit2, List.drop_left' l12]
  rw [unmarshal.eq_def]
  rw [if_neg (by omega)]
  simp only [htake8, hdrop8, hdrop16, List.take_left' l2,
    fromLE_uint64LE _ h1, fromLE_uint64LE _ h2]
  rw [if_neg (by simp)]
  simp

/-! ## The `BlockCache` block store (`common/cache.go`)

The struct's `lengthsName`/`blocksName` path strings and the mutex are
dropped; the two `os.File` handles become the byte lists `lengthsFile` and
`blocksFile`.  The extra field `corrupted` records the postmortem copies that
`recoverFromCorruption` writes to the `-corrupted` files (the only observable
effect of `copyFile`). -/

structure BlockCache where
  starts : List Int
  firstBlock : Int
  nextBlock : Int
  latestHash : Option (List Nat)
  lengthsFile : List Nat
  blocksFile : List Nat
  corrupted : Option (List Nat × List Nat)
deriving DecidableEq, Repr

/-- `os.File.ReadAt`: read exactly `len` bytes at offset `off`, failing (as the
source treats any short or errored read) unless the range is in bounds. -/
def readAt (file : List Nat) (off len : Int) : Option (List Nat) :=
  if 0 ≤ off ∧ 0 ≤ len ∧ off + len ≤ (file.length : Int) then
    some ((file.drop off.toNat).take len.toNat)
  else none

/-- `blockLength` (not including the checksum). -/
def BlockCache.blockLength (c : BlockCache) (height : Int) : Int :=
  if height < c.firstBlock ∨ height ≥ c.nextBlock then 0
  else
    let index := (height - c.firstBlock).toNat
    c.starts.getD (index + 1) 0 - c.starts.getD index 0 - 8

/-- `readBlock`: read `checksum ‖ payload` from the blocks file, verify the
checksum, decode, and verify the self-reported height.  Any failure yields
`none` (the source logs and returns `nil`).  `c.starts[height-c.firstBlock]`
is in bounds whenever the store invariant holds; out of bounds it is read as
a default `0` where Go would panic. -/
def BlockCache.readBlock (c : BlockCache) (height : Int) : Option CompactBlock :=
  let blockLen := c.blockLength height
  let offset := c.starts.getD (height - c.firstBlock).toNat 0
  match readAt c.blocksFile offset (blockLen + 8) with
  | none => none
  | some b =>
    let diskcs := b.take 8
    let payload := (b.drop 8).take blockLen.toNat
    if checksum height payload ≠ diskcs then none
    else
      match unmarshal payload with
      | none => none
      | some block => if goIntOfUint64 block.height ≠ height then none else some block

/-- The truncation half of `setDbFiles`: clamp the height to `firstBlock`,
truncate both files, cut the offset index, and lower `nextBlock`.  (The Go
function then calls `setLatestHash`; see `setDbFiles`.) -/
def BlockCache.truncFiles (c : BlockCache) (height : Int) : BlockCache :=
  let h := if height < c.firstBlock then c.firstBlock else height
  let index := (h - c.firstBlock).toNat
  { c with lengthsFile := c.lengthsFile.take (index * 4),
           blocksFile := c.blocksFile.take (c.starts.getD index 0).toNat,
           starts := c.starts.take (index + 1),
           nextBlock := h }

/-- `setDbFiles`: truncate to `height` (a no-op when `height > nextBlock`),
then recompute the latest hash.  The tail of the body is `setLatestHash`
with `recoverFromCorruption` inlined, because the Go functions
`setDbFiles → setLatestHash → recoverFromCorruption → setDbFiles` are
mutually recursive: a corrupt tip block triggers a further rollback by
10000 blocks, saving postmortem copies of both (already truncated) files. -/
def BlockCache.setDbFiles (c : BlockCache) (height : Int) : BlockCache :=
  if h1 : height ≤ c.nextBlock then
    if h2 : (c.truncFiles height).firstBlock < (c.truncFiles height).nextBlock then
      match { c.truncFiles height with latestHash := none }.readBlock
          ((c.truncFiles height).nextBlock - 1) with
      | some block =>
          { c.truncFiles height with latestHash := some block.hash }
      | none =>
          BlockCache.setDbFiles
            { c.truncFiles height with
              latestHash := none,
              corrupted := some ((c.truncFiles height).lengthsFile,
                                 (c.truncFiles height).blocksFile) }
            ((c.truncFiles height).nextBlock - 10000)
    else { c.truncFiles height with latestHash := none }
  else c
termination_by (min c.nextBlock (max height c.firstBlock) - c.firstBlock).toNat
decreasing_by
  simp only [BlockCache.truncFiles] at h2 ⊢
  split at h2 <;> omega

/-- `setLatestHash`: clear the hash, then (if any block remains) read the tip
block; a corrupt tip triggers `recoverFromCorruption(nextBlock - 10000)`. -/
def BlockCache.setLatestHash (c : BlockCache) : BlockCache :=
  let c0 := { c with latestHash := none }
  if c0.nextBlock > c0.firstBlock then
    match c0.readBlock (c0.nextBlock - 1) with
    | some block => { c0 with latestHash := some block.hash }
    | none =>
        BlockCache.setDbFiles
          { c0 with corrupted := some (c0.lengthsFile, c0.blocksFile) }
          (c0.nextBlock - 10000)
  else c0

/-- `recoverFromCorruption`: save postmortem copies of both files (recorded in
the `corrupted` field), then truncate back to `height`. -/
def BlockCache.recoverFromCorruption (c : BlockCache) (height : Int) : BlockCache :=
  BlockCache.setDbFiles { c with corrupted := some (c.lengthsFile, c.blocksFile) } height

/-- Outcome of a call to `Add`.  The Go function returns `nil` after the
silently-ignored `height > nextBlock` case, and `Log.Fatal` terminates the
process in the three fatal cases (the `return nil` after them is dead code). -/
inductive AddOutcome where
  | stored
  | ignoredAhead
  | fatalBelowFirst
  | fatalBackwards
  | fatalWrongHeight
deriving DecidableEq, Repr

/-- Whether an `Add` outcome is one of the `Log.Fatal` invariant failures. -/
def AddOutcome.isFatal : AddOutcome → Bool
  | .fatalBelowFirst => true
  | .fatalBackwards => true
  | .fatalWrongHeight => true
  | _ => false

/-- `Add(height, block)`: appends `checksum ‖ marshal block` to the blocks
file and the 4-byte length to the lengths file, extends the offset index,
updates `latestHash` (via Go's `copy` into the buffer allocated at first use)
and bumps `nextBlock`.  The guard structure mirrors the source exactly. -/
def BlockCache.Add (c : BlockCache) (height : Int) (block : CompactBlock) :
    AddOutcome × BlockCache :=
  if height > c.nextBlock then (.ignoredAhead, c)
  else if height < c.firstBlock then (.fatalBelowFirst, c)
  else if height < c.nextBlock then (.fatalBackwards, c)
  else if goIntOfUint64 block.height ≠ height then (.fatalWrongHeight, c)
  else
    let data := marshal block
    let b := checksum height data ++ data
    let offset := c.starts.getD (c.starts.length - 1) 0
    (.stored,
      { c with
        blocksFile := c.blocksFile ++ b,
        lengthsFile := c.lengthsFile ++ uint32LE (data.length % 2 ^ 32),
        starts := c.starts ++ [offset + ((data.length : Int) + 8)],
        latestHash := some (match c.latestHash with
          | none => block.hash
          | some old => goCopy old block.hash),
        nextBlock := c.nextBlock + 1 })

/-- `Reorg(height)`: clamp to `firstBlock`; ignore if not below `nextBlock`;
otherwise cut the index and both files and recompute the latest hash. -/
def BlockCache.Reorg (c : BlockCache) (height : Int) : BlockCache :=
  let height := if height < c.firstBlock then c.firstBlock else height
  if height ≥ c.nextBlock then c
  else
    let newCacheLen := (height - c.firstBlock).toNat
    let c1 := { c with
      nextBlock := height,
      starts := c.starts.take (newCacheLen + 1),
      lengthsFile := c.lengthsFile.take (4 * newCacheLen),
      blocksFile := c.blocksFile.take (c.starts.getD newCacheLen 0).toNat }
    c1.setLatestHash

/-- `Reset(startHeight)` (darkside-testing only): empty the cache, then move
both bounds to `startHeight`. -/
def BlockCache.Reset (c : BlockCache) (startHeight : Int) : BlockCache :=
  let c1 := c.setDbFiles c.firstBlock
  { c1 with firstBlock := startHeight, nextBlock := startHeight }

/-- `Get(height)`: `nil` outside `[firstBlock, nextBlock)`; a failed read
returns `nil` and spawns corruption recovery back to `height - 10000`
(modelled as having completed in the returned state). -/
def BlockCache.Get (c : BlockCache) (height : Int) : Option CompactBlock × BlockCache :=
  if height < c.firstBlock ∨ height ≥ c.nextBlock then (none, c)
  else
    match c.readBlock height with
    | none => (none, c.recoverFromCorruption (height - 10000))
    | some block => (some block, c)

/-- `GetNextHeight`. -/
def BlockCache.GetNextHeight (c : BlockCache) : Int := c.nextBlock

/-- `GetFirstHeight`. -/
def BlockCache.GetFirstHeight (c : BlockCache) : Int := c.firstBlock

/-- `GetLatestHash` (`nil` ↦ `none`). -/
def BlockCache.GetLatestHash (c : BlockCache) : Option (List Nat) := c.latestHash

/-- `HashMatch`: an unset latest hash matches anything, else compare bytes. -/
def BlockCache.HashMatch (c : BlockCache) (prevhash : List Nat) : Bool :=
  match c.latestHash with
  | none => true
  | some h => h == prevhash

/-- `GetLatestHeight`: `-1` when empty, else `nextBlock - 1`. -/
def BlockCache.GetLatestHeight (c : BlockCache) : Int :=
  if c.firstBlock = c.nextBlock then -1 else c.nextBlock - 1

/-! ## The generic LRU cache (`common/cache.go`)

The `map[string]*list.Element` plus `container/list` pair is modelled as a
single association list ordered by recency, front = most recently used; the
map's content is exactly the set of keys in the list, so it needs no separate
representation. -/

structure LRUCache (α : Type) where
  capacity : Nat
  entries : List (String × α)
deriving DecidableEq, Repr

/-- `NewLRUCache`: `none` models the panic on `capacity <= 0`. -/
def NewLRUCache (α : Type) (capacity : Int) : Option (LRUCache α) :=
  if capacity ≤ 0 then none else some ⟨capacity.toNat, []⟩

/-- `Get`: on a hit, move the entry to the front and return its value. -/
def LRUCache.get {α : Type} (c : LRUCache α) (key : String) : Option α × LRUCache α :=
  match c.entries.find? (fun e => e.1 == key) with
  | some e => (some e.2, { c with entries := (key, e.2) :: c.entries.eraseP (fun e => e.1 == key) })
  | none => (none, c)

/-- `Put`: update-and-move-to-front on a hit; otherwise evict the back entry
when the list is at capacity, then push the new entry at the front. -/
def LRUCache.put {α : Type} (c : LRUCache α) (key : String) (value : α) : LRUCache α :=
  if (c.entries.find? (fun e => e.1 == key)).isSome then
    { c with entries := (key, value) :: c.entries.eraseP (fun e => e.1 == key) }
  else
    let entries := if c.entries.length == c.capacity then c.entries.dropLast else c.entries
    { c with entries := (key, value) :: entries }

/-- `Delete`. -/
def LRUCache.delete {α : Type} (c : LRUCache α) (key : String) : LRUCache α :=
  { c with entries := c.entries.eraseP (fun e => e.1 == key) }

/-- `Clear`. -/
def LRUCache.clear {α : Type} (c : LRUCache α) : LRUCache α := { c with entries := [] }

/-- Fold a sequence of `Put` calls, in order. -/
def LRUCache.putAll {α : Type} (c : LRUCache α) (pairs : List (String × α)) : LRUCache α :=
  pairs.foldl (fun c e => c.put e.1 e.2) c

/-! ## Delta pagination (`merkle/sync.go`) -/

/-- Go 64-bit `int` arithmetic wraps: reduce into `[-2^63, 2^63)`. -/
def goWrapInt (i : Int) : Int :=
  let m : Int := i % 2 ^ 64
  if m < 2 ^ 63 then m else m - 2 ^ 64

theorem goWrapInt_eq_self (i : Int) (h0 : 0 ≤ i) (h1 : i < 2 ^ 63) : goWrapInt i = i := by
  unfold goWrapInt
  dsimp only
  rw [Int.emod_eq_of_lt h0 (by omega)]
  rw [if_pos h1]

/-- `PaginateDeltas`: the slice `deltas[page*pageSize : page*pageSize+pageSize]`
clipped to the list, empty once `start` reaches the length.  `page * pageSize`
and `start + pageSize` are Go machine-`int` (64-bit) operations and wrap; the
slice expression `deltas[start:end]` panics when the wrapped bounds are
invalid (`start < 0` or `start > end`), modelled as `none`. -/
def PaginateDeltas (deltas : List String) (page pageSize : Int) : Option (List String) :=
  let start := goWrapInt (page * pageSize)
  if start ≥ (deltas.length : Int) then some []
  else
    let stop := goWrapInt (start + pageSize)
    let stop := if stop > (deltas.length : Int) then (deltas.length : Int) else stop
    if 0 ≤ start ∧ start ≤ stop then
      some ((deltas.drop start.toNat).take (stop - start).toNat)
    else none

/-! ## SHA-256 (`crypto/sha256`), used by the Merkle frontier

A direct executable implementation over `Nat` with explicit `% 2^32`
arithmetic (FIPS 180-4). -/

def w32 (n : Nat) : Nat := n % 2 ^ 32

def rotr32 (n x : Nat) : Nat := w32 ((x >>> n) ||| (x <<< (32 - n)))

def shaCh (x y z : Nat) : Nat := w32 ((x &&& y) ^^^ ((2 ^ 32 - 1 - w32 x) &&& z))

def shaMaj (x y z : Nat) : Nat := w32 ((x &&& y) ^^^ (x &&& z) ^^^ (y &&& z))

def bigSigma0 (x : Nat) : Nat := rotr32 2 x ^^^ rotr32 13 x ^^^ rotr32 22 x

def bigSigma1 (x : Nat) : Nat := rotr32 6 x ^^^ rotr32 11 x ^^^ rotr32 25 x

def smallSigma0 (x : Nat) : Nat := rotr32 7 x ^^^ rotr32 18 x ^^^ (x >>> 3)

def smallSigma1 (x : Nat) : Nat := rotr32 17 x ^^^ rotr32 19 x ^^^ (x >>> 10)

def shaK : List Nat :=
  [1116352408, 1899447441, 3049323471, 3921009573, 961987163,
   1508970993, 2453635748, 2870763221, 3624381080, 310598401,
   607225278, 1426881987, 1925078388, 2162078206, 2614888103,
   3248222580, 3835390401, 4022224774, 264347078, 604807628,
   770255983, 1249150122, 1555081692, 1996064986, 2554220882,
   2821834349, 2952996808, 3210313671, 3336571891, 3584528711,
   113926993, 338241895, 666307205, 773529912, 1294757372,
   1396182291, 1695183700, 1986661051, 2177026350, 2456956037,
   2730485921, 2820302411, 3259730800, 3345764771, 3516065817,
   3600352804, 4094571909, 275423344, 430227734, 506948616,
   659060556, 883997877, 958139571, 1322822218, 1537002063,
   1747873779, 1955562222, 2024104815, 2227730452, 2361852424,
   2428436474, 2756734187, 3204031479, 3329325298]

/-- Working state: the eight 32-bit registers. -/
structure ShaState where
  a : Nat
  b : Nat
  c : Nat
  d : Nat
  e : Nat
  f : Nat
  g : Nat
  hh : Nat
deriving DecidableEq, Repr

def shaInit : ShaState :=
  ⟨1779033703, 3144134277, 1013904242, 2773480762,
   1359893119, 2600822924, 528734635, 1541459225⟩

/-- The 64-entry message schedule from one 16-word block. -/
def shaSchedule (block : List Nat) : List Nat :=
  (List.range 48).foldl
    (fun ws i =>
      ws ++ [w32 (smallSigma1 (ws.getD (i + 14) 0) + ws.getD (i + 9) 0 +
                  smallSigma0 (ws.getD (i + 1) 0) + ws.getD i 0)])
    block

def shaRound (st : ShaState) (k w : Nat) : ShaState :=
  let t1 := w32 (st.hh + bigSigma1 st.e + shaCh st.e st.f st.g + k + w)
  let t2 := w32 (bigSigma0 st.a + shaMaj st.a st.b st.c)
  ⟨w32 (t1 + t2), st.a, st.b, st.c, w32 (st.d + t1), st.e, st.f, st.g⟩

def shaAdd (x y : ShaState) : ShaState :=
  ⟨w32 (x.a + y.a), w32 (x.b + y.b), w32 (x.c + y.c), w32 (x.d + y.d),
   w32 (x.e + y.e), w32 (x.f + y.f), w32 (x.g + y.g), w32 (x.hh + y.hh)⟩

/-- Compress one 512-bit block into the running state. -/
def shaCompress (st : ShaState) (block : List Nat) : ShaState :=
  let ws := shaSchedule block
  shaAdd st ((List.range 64).foldl (fun s i => shaRound s (shaK.getD i 0) (ws.getD i 0)) st)

/-- Big-endian bytes → 32-bit words, four bytes at a time. -/
def bytesToWords : List Nat → List Nat
  | b0 :: b1 :: b2 :: b3 :: rest => (b0 * 2 ^ 24 + b1 * 2 ^ 16 + b2 * 2 ^ 8 + b3) :: bytesToWords rest
  | _ => []

/-- Split a word list into 16-word blocks. -/
def toBlocks (ws : List Nat) : List (List Nat) :=
  if h : ws.length = 0 then []
  else (ws.take 16) :: toBlocks (ws.drop 16)
termination_by ws.length
decreasing_by simp; omega

/-- SHA-256 padding: `0x80`, zeros to 56 mod 64, 8-byte big-endian bit length. -/
def shaPad (msg : List Nat) : List Nat :=
  msg ++ [0x80] ++ List.replicate ((119 - msg.length % 64) % 64) 0 ++ uint64BE (msg.length * 8)

def be4 (w : Nat) : List Nat := [w / 2 ^ 24 % 256, w / 2 ^ 16 % 256, w / 2 ^ 8 % 256, w % 256]

def shaDigest (st : ShaState) : List Nat :=
  be4 st.a ++ be4 st.b ++ be4 st.c ++ be4 st.d ++ be4 st.e ++ be4 st.f ++ be4 st.g ++ be4 st.hh

/-- `sha256.Sum256`/`sha256.New` digest of a byte list, as 32 bytes. -/
def sha256 (msg : List Nat) : List Nat :=
  shaDigest ((toBlocks (bytesToWords (shaPad msg))).foldl shaCompress shaInit)

/-- `hex.EncodeToString`: two lowercase hex digit bytes per input byte. -/
def hexDigit (n : Nat) : Nat := if n < 10 then 48 + n else 87 + n

def hexBytes (bs : List Nat) : List Nat :=
  bs.foldr (fun b acc => hexDigit (b / 16 % 16) :: hexDigit (b % 16) :: acc) []

/-! ## The `MerkleFrontier` tree (unnamed merkle source file)

Go strings (transaction ids and hex-encoded hashes) are byte lists; the empty
string is `[]`.  `Node` keeps its `Left`/`Right` child pointers even though
only `Value` is ever read back. -/

inductive MNode where
  | mk : List Nat → Option MNode → Option MNode → MNode

def MNode.value : MNode → List Nat
  | .mk v _ _ => v

structure MerkleFrontier where
  leaves : List MNode
  root : Option MNode

/-- `NewMerkleFrontier`. -/
def NewMerkleFrontier : MerkleFrontier := ⟨[], none⟩

/-- `combineHashes(left, right)`: hex of SHA-256 over `left` followed by the
right child's value when present. -/
def combineHashes (left : List Nat) (right : Option MNode) : List Nat :=
  hexBytes (sha256 (left ++ (match right with | some r => r.value | none => [])))

/-- `buildParentLevel`: pair adjacent nodes left to right; an unmatched
trailing node gets a `nil` right child (so it is hashed alone). -/
def buildParentLevel : List MNode → List MNode
  | [] => []
  | [l] => [.mk (combineHashes l.value none) (some l) none]
  | l :: r :: rest =>
      .mk (combineHashes l.value (some r)) (some l) (some r) :: buildParentLevel rest

theorem buildParentLevel_length : ∀ (nodes : List MNode),
    (buildParentLevel nodes).length = (nodes.length + 1) / 2
  | [] => rfl
  | [l] => by simp [buildParentLevel]
  | l :: r :: rest => by
      simp [buildParentLevel, buildParentLevel_length rest]
      omega

/-- `buildTree`: reduce levels until at most one node remains. -/
def buildTree (nodes : List MNode) : Option MNode :=
  if h : nodes.length > 1 then buildTree (buildParentLevel nodes)
  else
    match nodes with
    | [x] => some x
    | _ => none
termination_by nodes.length
decreasing_by rw [buildParentLevel_length]; omega

/-- `updateTree` composed into `AddTransaction`: append a raw (unhashed) leaf
and rebuild the whole tree. -/
def MerkleFrontier.addTransaction (mf : MerkleFrontier) (tx : List Nat) : MerkleFrontier :=
  let leaves := mf.leaves ++ [MNode.mk tx none none]
  { leaves := leaves, root := buildTree leaves }

/-- `AddBlock`: `AddTransaction` for each transaction in order. -/
def MerkleFrontier.addBlock (mf : MerkleFrontier) (txs : List (List Nat)) : MerkleFrontier :=
  txs.foldl MerkleFrontier.addTransaction mf

/-- `GetRoot`. -/
def MerkleFrontier.GetRoot (mf : MerkleFrontier) : Except String (List Nat) :=
  match mf.root with
  | none => Except.error "merkle tree is empty"
  | some r => Except.ok r.value

/-- The proof-collection loop of `GenerateProof` (`index` is non-negative once
past the guard, so it is carried as a `Nat`; Go's `index ^ 1` and
`index /= 2` agree with the `Nat` operations there). -/
def proofLoop (nodes : List MNode) (index : Nat) : List (List Nat) :=
  if nodes.length > 1 then
    (if index ^^^ 1 < nodes.length
      then (nodes.getD (index ^^^ 1) (.mk [] none none)).value
      else []) ::
    proofLoop (buildParentLevel nodes) (index / 2)
  else []
termination_by nodes.length
decreasing_by rw [buildParentLevel_length]; omega

/-- `GenerateProof`. -/
def MerkleFrontier.GenerateProof (mf : MerkleFrontier) (index : Int) :
    Except String (List (List Nat)) :=
  if index < 0 ∨ index ≥ (mf.leaves.length : Int) then Except.error "index out of range"
  else Except.ok (proofLoop mf.leaves index.toNat)

/-- Replaying a sibling path upward from a left-position leaf with the
`combineHashes` rule (the verification described by the spec for a leaf whose
index stays even at every level, such as index 0). -/
def replayFromLeft (leaf : List Nat) (path : List (List Nat)) : List Nat :=
  path.foldl (fun h s => combineHashes h (some (.mk s none none))) leaf

/-! ## Store invariants -/

/-- The contiguity invariant of the store (claim C5): `firstBlock ≤ nextBlock`
and the offset index holds one cumulative entry per retained height plus the
end sentinel. -/
def CacheInv (c : BlockCache) : Prop :=
  c.firstBlock ≤ c.nextBlock ∧
  c.starts.length = (c.nextBlock - c.firstBlock).toNat + 1

instance (c : BlockCache) : Decidable (CacheInv c) := by unfold CacheInv; infer_instance

/-- The full structural invariant of an uncorrupted store: contiguity, the
offset index starts at 0, is monotone, and its last entry is the append point
(the length of the blocks file). -/
def StoreInv (c : BlockCache) : Prop :=
  c.firstBlock ≤ c.nextBlock ∧
  c.starts.length = (c.nextBlock - c.firstBlock).toNat + 1 ∧
  c.starts.head? = some 0 ∧
  List.Pairwise (· ≤ ·) c.starts ∧
  c.starts.getD (c.starts.length - 1) 0 = (c.blocksFile.length : Int)

instance (c : BlockCache) : Decidable (StoreInv c) := by unfold StoreInv; infer_instance

/-- Indexed monotonicity out of the pairwise form. -/
theorem pairwise_getD_mono {l : List Int} (hp : List.Pairwise (· ≤ ·) l)
    {i j : Nat} (hij : i ≤ j) (hj : j < l.length) : l.getD i 0 ≤ l.getD j 0 := by
  rcases Nat.lt_or_ge i j with hlt | hge
  · have hi : i < l.length := lt_trans hlt hj
    rw [List.getD_eq_get?, List.getD_eq_get?, List.get?_eq_get hi, List.get?_eq_get hj]
    exact List.pairwise_iff_get.mp hp ⟨i, hi⟩ ⟨j, hj⟩ hlt
  · have : i = j := le_antisymm hij hge
    subst this
    exact le_refl _

/-- All offsets are non-negative when the head is 0 and the list is monotone. -/
theorem getD_nonneg_of_head_zero {l : List Int} (hh : l.head? = some 0)
    (hp : List.Pairwise (· ≤ ·) l) {i : Nat} (hi : i < l.length) : 0 ≤ l.getD i 0 := by
  cases l with
  | nil => simp at hh
  | cons a t =>
    have ha : a = 0 := by simpa using hh
    have := pairwise_getD_mono hp (Nat.zero_le i) hi
    simpa [ha] using this

/-! ## Claim C7: delta pagination -/

/-- C7 (counterexample): the source computes `page * pageSize` in wrapping
machine-`int` arithmetic.  At `page = pageSize = 2^32` (both pass the
handler's validation `page ≥ 0`, `pageSize > 0`), the product wraps to 0, so
the call returns the *first page* of a non-empty delta list — while the claim
requires the empty slice whenever `page*pageSize` is at least the total. -/
theorem paginateDeltas_wrap :
    (0 : Int) ≤ 2 ^ 32 ∧ (0 : Int) < 2 ^ 32 ∧
    (2 ^ 32 : Int) * 2 ^ 32 ≥ ((["d0"].length : Nat) : Int) ∧
    PaginateDeltas ["d0"] (2 ^ 32) (2 ^ 32) = some ["d0"] := by decide

/-- C7 (amended): for every delta list, `page ≥ 0` and `pageSize > 0` whose
slice bounds stay within a 64-bit `int` (`page*pageSize + pageSize < 2^63`,
so no wrap occurs), `PaginateDeltas` returns
`deltas[page*pageSize : page*pageSize+pageSize]` clipped to the list: it is
the drop/take slice, it is empty when `page*pageSize` reaches the total, and
otherwise its length is `min pageSize (total − page*pageSize)`.  (Beyond that
bound the multiplication wraps; see the counterexample.) -/
theorem paginateDeltas_correct (deltas : List String) (page pageSize : Int)
    (hp : 0 ≤ page) (hs : 0 < pageSize)
    (hnof : page * pageSize + pageSize < 2 ^ 63) :
    PaginateDeltas deltas page pageSize
      = some ((deltas.drop (page * pageSize).toNat).take pageSize.toNat) ∧
    (page * pageSize ≥ (deltas.length : Int) →
      PaginateDeltas deltas page pageSize = some []) ∧
    (page * pageSize < (deltas.length : Int) →
      ((deltas.drop (page * pageSize).toNat).take pageSize.toNat).length
        = min pageSize.toNat (deltas.length - (page * pageSize).toNat)) := by
  have hstart : 0 ≤ page * pageSize := mul_nonneg hp (le_of_lt hs)
  have hw1 : goWrapInt (page * pageSize) = page * pageSize :=
    goWrapInt_eq_self _ hstart (by omega)
  unfold PaginateDeltas
  rw [hw1]
  have hlen : (deltas.drop (page * pageSize).toNat).length
      = deltas.length - (page * pageSize).toNat := List.length_drop _ _
  rcases le_or_lt (deltas.length : Int) (page * pageSize) with hge | hlt
  · rw [if_pos hge]
    have hempty : (deltas.drop (page * pageSize).toNat).take pageSize.toNat = [] := by
      rw [List.take_eq_nil_iff]
      right
      rw [List.drop_eq_nil_iff_le]
      omega
    exact ⟨by rw [hempty], fun _ => rfl, fun hcon => absurd hcon (not_lt.mpr hge)⟩
  · rw [if_neg (not_le.mpr hlt)]
    dsimp only
    have hw2 : goWrapInt (page * pageSize + pageSize) = page * pageSize + pageSize :=
      goWrapInt_eq_self _ (by omega) (by omega)
    rw [hw2]
    rcases le_or_lt (page * pageSize + pageSize) (deltas.length : Int) with hfit | hover
    · rw [if_neg (not_lt.mpr hfit), if_pos ⟨hstart, by omega⟩]
      have he : (page * pageSize + pageSize - page * pageSize).toNat = pageSize.toNat := by
        omega
      rw [he]
      refine ⟨rfl, fun hcon => absurd hlt (not_lt.mpr hcon), fun _ => ?_⟩
      rw [List.length_take, hlen]
    · rw [if_pos hover, if_pos ⟨hstart, by omega⟩]
      have he : ((deltas.length : Int) - page * pageSize).toNat
          = deltas.length - (page * pageSize).toNat := by omega
      rw [he]
      have hwhole : (deltas.drop (page * pageSize).toNat).take
            (deltas.length - (page * pageSize).toNat)
          = (deltas.drop (page * pageSize).toNat).take pageSize.toNat := by
        rw [List.take_of_length_le (by omega), List.take_of_length_le (by omega)]
      refine ⟨by rw [hwhole], fun hcon => absurd hlt (not_lt.mpr hcon), fun _ => ?_⟩
      rw [List.length_take, hlen]

/-- C7 witness: page 1 of size 2 over a five-element list. -/
theorem paginateDeltas_correct_witness :
    ((0 : Int) ≤ 1 ∧ (0 : Int) < 2 ∧ (1 : Int) * 2 + 2 < 2 ^ 63) ∧
    (PaginateDeltas ["a", "b", "c", "d", "e"] 1 2
        = some ((["a", "b", "c", "d", "e"].drop ((1 : Int) * 2).toNat).take (2 : Int).toNat) ∧
      ((1 : Int) * 2 ≥ ((["a", "b", "c", "d", "e"].length : Nat) : Int) →
        PaginateDeltas ["a", "b", "c", "d", "e"] 1 2 = some []) ∧
      ((1 : Int) * 2 < ((["a", "b", "c", "d", "e"].length : Nat) : Int) →
        ((["a", "b", "c", "d", "e"].drop ((1 : Int) * 2).toNat).take (2 : Int).toNat).length
          = min (2 : Int).toNat (["a", "b", "c", "d", "e"].length - ((1 : Int) * 2).toNat))) :=
  ⟨⟨by decide, by decide, by decide⟩,
   paginateDeltas_correct ["a", "b", "c", "d", "e"] 1 2 (by decide) (by decide) (by decide)⟩

/-! ## Claim C1: `Add` height violations -/

/-- An empty store whose bounds sit at height 5. -/
def sampleCache : BlockCache := ⟨[0], 5, 5, none, [], [], none⟩

/-- A block reporting height 6. -/
def sampleBlock : CompactBlock := ⟨6, [1, 2], []⟩

/-- C1 (counterexample): calling `Add(6, block)` on a store with
`nextBlock = 5` is a violation of `height == nextBlock`, yet the call is
*silently ignored* (the source comments "Cache has been reset"), not treated
as a fatal invariant failure — refuting the claim that every violation shape,
including `height > nextBlock`, is fatal. -/
theorem add_ahead_not_fatal :
    (6 : Int) ≠ sampleCache.nextBlock ∧
    (sampleCache.Add 6 sampleBlock).1.isFatal = false ∧
    (sampleCache.Add 6 sampleBlock).2 = sampleCache := by decide

/-- C1 (amended): `Add(h, b)` never stores a mismatched record — every
violating call leaves the store unchanged — but only `h < nextBlock`
(including `h < firstBlock`) and `b.height ≠ h` are fatal invariant failures;
`h > nextBlock` is silently tolerated (treated as the residue of a cache
reset), returning success without storing anything. -/
theorem add_violation_outcomes (c : BlockCache) (height : Int) (block : CompactBlock)
    (hinv : c.firstBlock ≤ c.nextBlock) :
    (height > c.nextBlock → c.Add height block = (.ignoredAhead, c)) ∧
    (height < c.firstBlock → c.Add height block = (.fatalBelowFirst, c)) ∧
    (c.firstBlock ≤ height → height < c.nextBlock →
      c.Add height block = (.fatalBackwards, c)) ∧
    (height = c.nextBlock → goIntOfUint64 block.height ≠ height →
      c.Add height block = (.fatalWrongHeight, c)) := by
  refine ⟨fun h1 => ?_, fun h2 => ?_, fun h3 h4 => ?_, fun h5 h6 => ?_⟩
  · rw [BlockCache.Add, if_pos h1]
  · rw [BlockCache.Add, if_neg (by omega), if_pos h2]
  · rw [BlockCache.Add, if_neg (by omega), if_neg (by omega), if_pos h4]
  · rw [BlockCache.Add, if_neg (by omega), if_neg (by omega), if_neg (by omega), if_pos h6]

/-- C1 witness: the amended statement at the sample store. -/
theorem add_violation_outcomes_witness :
    sampleCache.firstBlock ≤ sampleCache.nextBlock ∧
    (((6 : Int) > sampleCache.nextBlock → sampleCache.Add 6 sampleBlock = (.ignoredAhead, sampleCache)) ∧
     ((6 : Int) < sampleCache.firstBlock → sampleCache.Add 6 sampleBlock = (.fatalBelowFirst, sampleCache)) ∧
     (sampleCache.firstBlock ≤ 6 → (6 : Int) < sampleCache.nextBlock →
       sampleCache.Add 6 sampleBlock = (.fatalBackwards, sampleCache)) ∧
     ((6 : Int) = sampleCache.nextBlock → goIntOfUint64 sampleBlock.height ≠ 6 →
       sampleCache.Add 6 sampleBlock = (.fatalWrongHeight, sampleCache))) :=
  ⟨by decide, add_violation_outcomes sampleCache 6 sampleBlock (by decide)⟩

/-! ## Claim C9: `HashMatch` on an empty store -/

/-- C9: with no latest hash set (as after construction, or after truncating
the store to `firstBlock`), `HashMatch` accepts every previous-hash, so an
empty store never signals a reorg. -/
theorem hashMatch_empty (c : BlockCache) (p : List Nat)
    (hempty : c.latestHash = none) (hinv : c.firstBlock ≤ c.nextBlock) :
    c.HashMatch p = true ∧
    (c.setDbFiles c.firstBlock).latestHash = none ∧
    ∀ q : List Nat, (c.setDbFiles c.firstBlock).HashMatch q = true := by
  have htrunc : (c.truncFiles c.firstBlock).nextBlock = c.firstBlock := by
    simp [BlockCache.truncFiles]
  have hKey : c.setDbFiles c.firstBlock
      = { c.truncFiles c.firstBlock with latestHash := none } := by
    rw [BlockCache.setDbFiles.eq_def, dif_pos hinv, dif_neg]
    rw [htrunc]
    simp [BlockCache.truncFiles]
  refine ⟨?_, ?_, ?_⟩
  · rw [BlockCache.HashMatch, hempty]
  · rw [hKey]
  · intro q
    rw [hKey, BlockCache.HashMatch]

/-- C9 witness. -/
theorem hashMatch_empty_witness :
    (sampleCache.latestHash = none ∧ sampleCache.firstBlock ≤ sampleCache.nextBlock) ∧
    (sampleCache.HashMatch [9, 9] = true ∧
     (sampleCache.setDbFiles sampleCache.firstBlock).latestHash = none ∧
     ∀ q : List Nat, (sampleCache.setDbFiles sampleCache.firstBlock).HashMatch q = true) :=
  ⟨⟨by decide, by decide⟩, hashMatch_empty sampleCache [9, 9] (by decide) (by decide)⟩

/-! ## Claim C10: `GetLatestHeight` -/

/-- A one-block store whose single record is unreadable (blocks file empty):
used to witness corruption recovery and the height accessors. -/
def sampleCorrupt : BlockCache := ⟨[0, 50], 0, 1, some [7], [1, 2, 3, 4], [], none⟩

/-- C10: `GetLatestHeight()` returns the sentinel `-1` exactly when the store
is empty (`firstBlock = nextBlock`), and on a non-empty store returns
`nextBlock - 1`, so `GetLatestHeight() + 1 = GetNextHeight()`.  (Block heights
are non-negative in every reachable store, hence the `0 ≤ firstBlock`
hypothesis.) -/
theorem getLatestHeight_spec (c : BlockCache)
    (h0 : 0 ≤ c.firstBlock) (hinv : c.firstBlock ≤ c.nextBlock) :
    (c.GetLatestHeight = -1 ↔ c.firstBlock = c.nextBlock) ∧
    (c.firstBlock ≠ c.nextBlock →
      c.GetLatestHeight = c.nextBlock - 1 ∧ c.GetLatestHeight + 1 = c.GetNextHeight) := by
  unfold BlockCache.GetLatestHeight BlockCache.GetNextHeight
  split_ifs with h
  · exact ⟨⟨fun _ => h, fun _ => rfl⟩, fun hne => absurd h hne⟩
  · refine ⟨⟨fun hc => ?_, fun hc => absurd hc h⟩, fun _ => ⟨rfl, by ring⟩⟩
    omega

/-- C10 witness: the non-empty sample store has latest height 0 = next - 1. -/
theorem getLatestHeight_spec_witness :
    ((0 : Int) ≤ sampleCorrupt.firstBlock ∧ sampleCorrupt.firstBlock ≤ sampleCorrupt.nextBlock) ∧
    ((sampleCorrupt.GetLatestHeight = -1 ↔ sampleCorrupt.firstBlock = sampleCorrupt.nextBlock) ∧
     (sampleCorrupt.firstBlock ≠ sampleCorrupt.nextBlock →
       sampleCorrupt.GetLatestHeight = sampleCorrupt.nextBlock - 1 ∧
       sampleCorrupt.GetLatestHeight + 1 = sampleCorrupt.GetNextHeight)) :=
  ⟨⟨by decide, by decide⟩, getLatestHeight_spec sampleCorrupt (by decide) (by decide)⟩

/-! ## Claim C8: LRU eviction -/

theorem find?_key_eq_none {α : Type} (l : List (String × α)) (k : String)
    (h : k ∉ l.map Prod.fst) : l.find? (fun e => e.1 == k) = none := by
  rw [List.find?_eq_none]
  intro e he hbeq
  exact h (List.mem_map.mpr ⟨e, he, by simpa using hbeq⟩)

/-- A fresh `Put` below capacity just pushes the entry at the front. -/
theorem put_fresh_below_capacity {α : Type} (c : LRUCache α) (k : String) (v : α)
    (hfresh : k ∉ c.entries.map Prod.fst) (hlen : c.entries.length ≠ c.capacity) :
    c.put k v = { c with entries := (k, v) :: c.entries } := by
  rw [LRUCache.put, find?_key_eq_none _ _ hfresh]
  simp [hlen]

/-- A fresh `Put` at capacity evicts exactly the back (least recently used)
entry, then pushes the new entry at the front. -/
theorem put_fresh_at_capacity {α : Type} (c : LRUCache α) (k : String) (v : α)
    (hfresh : k ∉ c.entries.map Prod.fst) (hlen : c.entries.length = c.capacity) :
    c.put k v = { c with entries := (k, v) :: c.entries.dropLast } := by
  rw [LRUCache.put, find?_key_eq_none _ _ hfresh]
  simp [hlen]

/-- Folding fresh `Put`s that fit within capacity stacks them in reverse
order on top of the existing entries. -/
theorem putAll_fresh {α : Type} :
    ∀ (pairs : List (String × α)) (c : LRUCache α),
      (pairs.map Prod.fst).Nodup →
      (∀ k ∈ pairs.map Prod.fst, k ∉ c.entries.map Prod.fst) →
      c.entries.length + pairs.length ≤ c.capacity →
      (c.putAll pairs).entries = pairs.reverse ++ c.entries ∧
      (c.putAll pairs).capacity = c.capacity
  | [], c => fun _ _ _ => ⟨rfl, rfl⟩
  | (k, v) :: rest, c => by
      intro hnodup hdisj hfit
      simp only [List.map_cons, List.nodup_cons] at hnodup
      simp only [List.length_cons] at hfit
      have hfresh : k ∉ c.entries.map Prod.fst := hdisj k (by simp)
      have hne : c.entries.length ≠ c.capacity := by omega
      have hput := put_fresh_below_capacity c k v hfresh hne
      have ih := putAll_fresh rest (c.put k v) hnodup.2
        (by
          intro k' hk'
          rw [hput]
          simp only [List.map_cons, List.mem_cons]
          rintro (rfl | hmem)
          · exact hnodup.1 hk'
          · exact hdisj k' (by simp [hk']) hmem)
        (by rw [hput]; simp only [List.length_cons]; omega)
      have hstep : c.putAll ((k, v) :: rest) = (c.put k v).putAll rest := rfl
      rw [hstep, ih.1, ih.2, hput]
      constructor
      · simp
      · rfl

/-- C8: a capacity-`N` cache (N > 0; `NewLRUCache` models the panic on a
non-positive capacity by returning `none`): after `Put`-ing `N+1` distinct
keys in order with no intervening accesses, the first key inserted is no
longer retrievable while the `(N+1)`-th key returns its value; and a `Put` of
a fresh key on any full cache evicts exactly the single least-recently-used
(back) entry before inserting. -/
theorem lru_eviction {α : Type} (N : Int) (c0 : LRUCache α)
    (hinit : NewLRUCache α N = some c0)
    (first last_ : String × α) (rest : List (String × α))
    (hlen : (rest.length : Int) = N)
    (hnodup : ((first :: rest).map Prod.fst).Nodup)
    (hlast : rest.getLast? = some last_) :
    ((c0.putAll (first :: rest)).get first.1).1 = none ∧
    ((c0.putAll (first :: rest)).get last_.1).1 = some last_.2 ∧
    ∀ (d : LRUCache α) (k : String) (v : α),
      d.entries.length = d.capacity → k ∉ d.entries.map Prod.fst →
      (d.put k v).entries = (k, v) :: d.entries.dropLast := by
  have hNpos : ¬ N ≤ 0 := fun h => by
    rw [NewLRUCache, if_pos h] at hinit
    exact Option.noConfusion hinit
  have hc0 : c0 = ⟨N.toNat, []⟩ := by
    rw [NewLRUCache, if_neg hNpos] at hinit
    exact (Option.some_inj.mp hinit).symm
  have hrestne : rest ≠ [] := by
    intro h
    rw [h] at hlast
    exact Option.noConfusion hlast
  obtain ⟨mid, hmid⟩ : ∃ mid, rest = mid ++ [last_] := by
    refine ⟨rest.dropLast, ?_⟩
    conv_lhs => rw [← List.dropLast_append_getLast hrestne]
    rw [List.getLast?_eq_getLast rest hrestne] at hlast
    rw [Option.some_inj.mp hlast]
  have hmidlen : mid.length + 1 = rest.length := by rw [hmid]; simp
  -- unpack the distinctness of the three key groups
  simp only [List.map_cons, List.nodup_cons] at hnodup
  have hkeysrest := hnodup.2
  rw [hmid, List.map_append] at hkeysrest
  rw [List.nodup_append] at hkeysrest
  have hmidnodup : (mid.map Prod.fst).Nodup := hkeysrest.1
  have hlastnotmid : last_.1 ∉ mid.map Prod.fst := by
    intro hmem
    exact hkeysrest.2.2 hmem (by simp)
  have hfirstmid : first.1 ∉ mid.map Prod.fst := by
    intro hmem
    exact hnodup.1 (by rw [hmid, List.map_append]; exact List.mem_append_left _ hmem)
  have hfirstlast : first.1 ≠ last_.1 := by
    intro heq
    exact hnodup.1 (by rw [hmid, List.map_append, heq]; simp)
  -- after the first put: a one-entry cache
  have hput1 : c0.put first.1 first.2 = { c0 with entries := [first] } := by
    rw [hc0, put_fresh_below_capacity _ _ _ (by simp) (by simp; omega)]
  -- after putting mid on top: full, in reverse order
  set S := ({ c0 with entries := [first] } : LRUCache α).putAll mid with hSdef
  have hSfacts := putAll_fresh mid ({ c0 with entries := [first] } : LRUCache α)
    hmidnodup
    (by
      intro k hk
      simp only [List.map_cons, List.map_nil, List.mem_singleton]
      intro hkf
      subst hkf
      exact hfirstmid hk)
    (by rw [hc0]; simp; omega)
  have hS1 : S.entries = mid.reverse ++ [first] := hSfacts.1
  have hS2 : S.capacity = N.toNat := by rw [hSfacts.2, hc0]
  have hSfull : S.entries.length = S.capacity := by
    rw [hS1, hS2]
    simp
    omega
  have hSkeys : S.entries.map Prod.fst = (mid.map Prod.fst).reverse ++ [first.1] := by
    rw [hS1]
    simp
  have hlastfresh : last_.1 ∉ S.entries.map Prod.fst := by
    rw [hSkeys]
    simp only [List.mem_append, List.mem_reverse, List.mem_singleton]
    rintro (hmem | heq)
    · exact hlastnotmid hmem
    · exact hfirstlast heq.symm
  -- the final put evicts exactly `first`
  have hfin : (S.put last_.1 last_.2).entries = (last_.1, last_.2) :: mid.reverse := by
    rw [put_fresh_at_capacity S _ _ hlastfresh hSfull]
    show (last_.1, last_.2) :: S.entries.dropLast = (last_.1, last_.2) :: mid.reverse
    rw [hS1]
    simp
  have hfinal : (c0.putAll (first :: rest)).entries = (last_.1, last_.2) :: mid.reverse := by
    have h1 : c0.putAll (first :: rest) = (c0.put first.1 first.2).putAll rest := rfl
    have h2 : (c0.put first.1 first.2).putAll rest = S.put last_.1 last_.2 := by
      rw [hmid, hput1, LRUCache.putAll, List.foldl_append]
      rfl
    rw [h1, h2, hfin]
  refine ⟨?_, ?_, ?_⟩
  · rw [LRUCache.get, hfinal, find?_key_eq_none]
    simp only [List.map_cons, List.mem_cons, List.map_reverse, List.mem_reverse]
    rintro (heq | hmem)
    · exact hfirstlast heq
    · exact hfirstmid (by simpa using hmem)
  · rw [LRUCache.get, hfinal]
    rw [List.find?_cons_of_pos _ (by simp)]
  · intro d k v hfull hfresh
    rw [put_fresh_at_capacity d k v hfresh hfull]

/-- C8 witness: capacity 2, keys "a", "b", "c" — "a" is evicted, "c" kept. -/
theorem lru_eviction_witness :
    (NewLRUCache Nat 2 = some ⟨2, []⟩ ∧
     (([("b", 2), ("c", 3)] : List (String × Nat)).length : Int) = 2 ∧
     ((("a", 1) :: [("b", 2), ("c", 3)]).map Prod.fst).Nodup ∧
     ([("b", 2), ("c", 3)] : List (String × Nat)).getLast? = some ("c", 3)) ∧
    ((((⟨2, []⟩ : LRUCache Nat).putAll (("a", 1) :: [("b", 2), ("c", 3)])).get "a").1 = none ∧
     (((⟨2, []⟩ : LRUCache Nat).putAll (("a", 1) :: [("b", 2), ("c", 3)])).get "c").1 = some 3 ∧
     ∀ (d : LRUCache Nat) (k : String) (v : Nat),
       d.entries.length = d.capacity → k ∉ d.entries.map Prod.fst →
       (d.put k v).entries = (k, v) :: d.entries.dropLast) :=
  ⟨⟨by decide, by decide, by decide, by decide⟩,
   lru_eviction 2 ⟨2, []⟩ (by decide) ("a", 1) ("c", 3) [("b", 2), ("c", 3)]
     (by decide) (by decide) (by decide)⟩

/-! ## Claims C2 and C6: Merkle frontier roots and proofs -/

theorem hexBytes_length (bs : List Nat) : (hexBytes bs).length = 2 * bs.length := by
  induction bs with
  | nil => rfl
  | cons b t ih =>
      simp only [hexBytes, List.foldr] at ih ⊢
      simp [ih]
      omega

theorem shaDigest_length (st : ShaState) : (shaDigest st).length = 32 := by
  simp [shaDigest, be4]

theorem sha256_length (msg : List Nat) : (sha256 msg).length = 32 := by
  rw [sha256, shaDigest_length]

/-- Every `combineHashes` output is a 64-character hex string. -/
theorem combineHashes_length (left : List Nat) (right : Option MNode) :
    (combineHashes left right).length = 64 := by
  rw [combineHashes.eq_def, hexBytes_length, sha256_length]

theorem buildTree_single (x : MNode) : buildTree [x] = some x := by
  rw [buildTree.eq_def]
  simp

theorem buildTree_step (nodes : List MNode) (h : nodes.length > 1) :
    buildTree nodes = buildTree (buildParentLevel nodes) := by
  conv_lhs => rw [buildTree.eq_def]
  rw [dif_pos h]

theorem proofLoop_done (nodes : List MNode) (index : Nat) (h : ¬ nodes.length > 1) :
    proofLoop nodes index = [] := by
  rw [proofLoop.eq_def]
  rw [if_neg h]

theorem proofLoop_step (nodes : List MNode) (index : Nat) (h : nodes.length > 1) :
    proofLoop nodes index =
      (if index ^^^ 1 < nodes.length
        then (nodes.getD (index ^^^ 1) (.mk [] none none)).value
        else []) :: proofLoop (buildParentLevel nodes) (index / 2) := by
  conv_lhs => rw [proofLoop.eq_def]
  rw [if_pos h]

/-- C2 (counterexample): on the code, the root of a single-leaf frontier is
the *raw leaf value* itself — leaves are stored unhashed and `buildTree` of a
singleton returns the leaf node — not the hash of the leaf under the
`combineHashes` rule as the claim states (the two differ: a `combineHashes`
result is always 64 hex characters, while the leaf "tx1" has 3 bytes). -/
theorem single_leaf_root_unhashed :
    (NewMerkleFrontier.addTransaction [116, 120, 49]).GetRoot
      = Except.ok [116, 120, 49] ∧
    [116, 120, 49] ≠ combineHashes [116, 120, 49] none := by
  constructor
  · rw [MerkleFrontier.GetRoot]
    have : (NewMerkleFrontier.addTransaction [116, 120, 49]).root
        = some (MNode.mk [116, 120, 49] none none) := by
      rw [MerkleFrontier.addTransaction]
      show buildTree ([] ++ [MNode.mk [116, 120, 49] none none])
          = some (MNode.mk [116, 120, 49] none none)
      rw [List.nil_append, buildTree_single]
    rw [this]
    rfl
  · intro h
    have hl := congrArg List.length h
    rw [combineHashes_length] at hl
    simp at hl

/-- C2 (amended): `GetRoot()` on an empty frontier fails with the empty-tree
error, and the root of a single-leaf frontier is the leaf's own (unhashed)
value. -/
theorem getRoot_empty_and_single (tx : List Nat) :
    NewMerkleFrontier.GetRoot = Except.error "merkle tree is empty" ∧
    (NewMerkleFrontier.addTransaction tx).GetRoot = Except.ok tx := by
  constructor
  · rfl
  · rw [MerkleFrontier.GetRoot]
    have : (NewMerkleFrontier.addTransaction tx).root = some (MNode.mk tx none none) := by
      rw [MerkleFrontier.addTransaction]
      show buildTree ([] ++ [MNode.mk tx none none]) = some (MNode.mk tx none none)
      rw [List.nil_append, buildTree_single]
    rw [this]
    rfl

/-- C6: for a frontier built from exactly 4 leaves, `GenerateProof(0)`
succeeds with a sibling path of exactly 2 hashes whose replay from leaf 0
under the pairwise combine rule reproduces `GetRoot()`, and `GenerateProof`
fails with the out-of-range error for every index `< 0` or `≥ 4`. -/
theorem generateProof_four (t0 t1 t2 t3 : List Nat) (i : Int) (hi : i < 0 ∨ i ≥ 4) :
    ∃ p, (NewMerkleFrontier.addBlock [t0, t1, t2, t3]).GenerateProof 0 = Except.ok p ∧
      p.length = 2 ∧
      (NewMerkleFrontier.addBlock [t0, t1, t2, t3]).GetRoot
        = Except.ok (replayFromLeft t0 p) ∧
      (NewMerkleFrontier.addBlock [t0, t1, t2, t3]).GenerateProof i
        = Except.error "index out of range" := by
  have hmf : NewMerkleFrontier.addBlock [t0, t1, t2, t3]
      = { leaves := [MNode.mk t0 none none, MNode.mk t1 none none,
                     MNode.mk t2 none none, MNode.mk t3 none none],
          root := buildTree [MNode.mk t0 none none, MNode.mk t1 none none,
                             MNode.mk t2 none none, MNode.mk t3 none none] } := by
    simp [MerkleFrontier.addBlock, MerkleFrontier.addTransaction, NewMerkleFrontier]
  have hbpl1 : buildParentLevel [MNode.mk t0 none none, MNode.mk t1 none none,
        MNode.mk t2 none none, MNode.mk t3 none none]
      = [MNode.mk (combineHashes t0 (some (MNode.mk t1 none none)))
           (some (MNode.mk t0 none none)) (some (MNode.mk t1 none none)),
         MNode.mk (combineHashes t2 (some (MNode.mk t3 none none)))
           (some (MNode.mk t2 none none)) (some (MNode.mk t3 none none))] := by
    simp [buildParentLevel, MNode.value]
  have hbpl2 : buildParentLevel
        [MNode.mk (combineHashes t0 (some (MNode.mk t1 none none)))
           (some (MNode.mk t0 none none)) (some (MNode.mk t1 none none)),
         MNode.mk (combineHashes t2 (some (MNode.mk t3 none none)))
           (some (MNode.mk t2 none none)) (some (MNode.mk t3 none none))]
      = [MNode.mk
          (combineHashes (combineHashes t0 (some (MNode.mk t1 none none)))
            (some (MNode.mk (combineHashes t2 (some (MNode.mk t3 none none)))
              (some (MNode.mk t2 none none)) (some (MNode.mk t3 none none)))))
          (some (MNode.mk (combineHashes t0 (some (MNode.mk t1 none none)))
            (some (MNode.mk t0 none none)) (some (MNode.mk t1 none none))))
          (some (MNode.mk (combineHashes t2 (some (MNode.mk t3 none none)))
            (some (MNode.mk t2 none none)) (some (MNode.mk t3 none none))))] := by
    simp [buildParentLevel, MNode.value]
  have hroot : buildTree [MNode.mk t0 none none, MNode.mk t1 none none,
        MNode.mk t2 none none, MNode.mk t3 none none]
      = some (MNode.mk
          (combineHashes (combineHashes t0 (some (MNode.mk t1 none none)))
            (some (MNode.mk (combineHashes t2 (some (MNode.mk t3 none none)))
              (some (MNode.mk t2 none none)) (some (MNode.mk t3 none none)))))
          (some (MNode.mk (combineHashes t0 (some (MNode.mk t1 none none)))
            (some (MNode.mk t0 none none)) (some (MNode.mk t1 none none))))
          (some (MNode.mk (combineHashes t2 (some (MNode.mk t3 none none)))
            (some (MNode.mk t2 none none)) (some (MNode.mk t3 none none))))) := by
    rw [buildTree_step _ (by simp), hbpl1, buildTree_step _ (by simp), hbpl2,
      buildTree_single]
  have hproof : proofLoop [MNode.mk t0 none none, MNode.mk t1 none none,
        MNode.mk t2 none none, MNode.mk t3 none none] 0
      = [t1, combineHashes t2 (some (MNode.mk t3 none none))] := by
    rw [proofLoop_step _ _ (by simp), hbpl1, proofLoop_step _ _ (by simp), hbpl2,
      proofLoop_done _ _ (by simp)]
    norm_num [MNode.value, List.getD]
  refine ⟨[t1, combineHashes t2 (some (MNode.mk t3 none none))], ?_, rfl, ?_, ?_⟩
  · rw [MerkleFrontier.GenerateProof, hmf]
    rw [if_neg (by norm_num)]
    rw [show ((0 : Int).toNat) = 0 from rfl, hproof]
  · rw [MerkleFrontier.GetRoot, hmf]
    simp only [hroot]
    rw [replayFromLeft]
    simp [combineHashes, MNode.value]
  · rw [MerkleFrontier.GenerateProof, hmf]
    rw [if_pos (by simp at hi ⊢; omega)]

/-- C6 witness: the out-of-range index 10 on the concrete four-leaf tree
"t0".."t3" (no hashes need evaluating; the conclusion is instantiated from
the theorem). -/
theorem generateProof_four_witness :
    ((10 : Int) < 0 ∨ (10 : Int) ≥ 4) ∧
    (∃ p, (NewMerkleFrontier.addBlock [[48], [49], [50], [51]]).GenerateProof 0
        = Except.ok p ∧
      p.length = 2 ∧
      (NewMerkleFrontier.addBlock [[48], [49], [50], [51]]).GetRoot
        = Except.ok (replayFromLeft [48] p) ∧
      (NewMerkleFrontier.addBlock [[48], [49], [50], [51]]).GenerateProof 10
        = Except.error "index out of range") :=
  ⟨by decide, generateProof_four [48] [49] [50] [51] 10 (by decide)⟩

/-! ## Claim C5: the contiguity invariant is preserved -/

theorem truncFiles_inv (c : BlockCache) (height : Int) (hc : CacheInv c)
    (hle : height ≤ c.nextBlock) : CacheInv (c.truncFiles height) := by
  obtain ⟨h1, h2⟩ := hc
  constructor
  · simp only [BlockCache.truncFiles]
    split <;> omega
  · simp only [BlockCache.truncFiles, List.length_take, h2]
    split <;> omega

theorem setDbFiles_inv : ∀ (c : BlockCache) (height : Int),
    CacheInv c → CacheInv (c.setDbFiles height) := by
  intro c height
  induction c, height using BlockCache.setDbFiles.induct with
  | case1 c height h1 h2 blk hsome =>
      intro hc
      rw [BlockCache.setDbFiles.eq_def, dif_pos h1, dif_pos h2, hsome]
      exact truncFiles_inv c height hc h1
  | case2 c height h1 h2 hnone ih =>
      intro hc
      rw [BlockCache.setDbFiles.eq_def, dif_pos h1, dif_pos h2, hnone]
      exact ih (truncFiles_inv c height hc h1)
  | case3 c height h1 h2 =>
      intro hc
      rw [BlockCache.setDbFiles.eq_def, dif_pos h1, dif_neg h2]
      exact truncFiles_inv c height hc h1
  | case4 c height h1 =>
      intro hc
      rw [BlockCache.setDbFiles.eq_def, dif_neg h1]
      exact hc

theorem setLatestHash_inv (c : BlockCache) (hc : CacheInv c) :
    CacheInv c.setLatestHash := by
  unfold BlockCache.setLatestHash
  dsimp only
  split
  · split
    · exact hc
    · exact setDbFiles_inv _ _ hc
  · exact hc

/-- Truncating to `firstBlock` never recurses (nothing is left to read). -/
theorem setDbFiles_to_first (c : BlockCache) (hinv : c.firstBlock ≤ c.nextBlock) :
    c.setDbFiles c.firstBlock = { c.truncFiles c.firstBlock with latestHash := none } := by
  rw [BlockCache.setDbFiles.eq_def, dif_pos hinv, dif_neg]
  simp [BlockCache.truncFiles]

theorem add_inv (c : BlockCache) (height : Int) (b : CompactBlock) (hc : CacheInv c) :
    CacheInv (c.Add height b).2 := by
  obtain ⟨h1, h2⟩ := hc
  unfold BlockCache.Add
  split_ifs <;> try exact ⟨h1, h2⟩
  dsimp only
  constructor
  · dsimp only
    omega
  · simp only [List.length_append, List.length_cons, List.length_nil, h2]
    omega

theorem reorg_inv (c : BlockCache) (height : Int) (hc : CacheInv c) :
    CacheInv (c.Reorg height) := by
  obtain ⟨h1, h2⟩ := hc
  unfold BlockCache.Reorg
  dsimp only
  rcases lt_or_le height c.firstBlock with hcl | hcl
  · rw [if_pos hcl]
    split_ifs with hge
    · exact ⟨h1, h2⟩
    · rw [not_le] at hge
      apply setLatestHash_inv
      refine ⟨le_refl _, ?_⟩
      simp only [List.length_take, h2]
      omega
  · rw [if_neg (not_lt.mpr hcl)]
    split_ifs with hge
    · exact ⟨h1, h2⟩
    · rw [not_le] at hge
      apply setLatestHash_inv
      refine ⟨hcl, ?_⟩
      simp only [List.length_take, h2]
      omega

theorem reset_inv (c : BlockCache) (startHeight : Int) (hc : CacheInv c) :
    CacheInv (c.Reset startHeight) := by
  obtain ⟨h1, h2⟩ := hc
  unfold BlockCache.Reset
  dsimp only
  rw [setDbFiles_to_first c h1]
  constructor
  · exact le_refl _
  · simp only [BlockCache.truncFiles, List.length_take, h2]
    split_ifs <;> omega

/-- C5: every store operation — `Add` (in all outcome cases), `Reorg`,
`Reset`, and the internal `setDbFiles` truncation used by corruption
recovery — preserves the invariant that `firstBlock ≤ nextBlock` and the
offset index holds exactly one cumulative entry per height of
`[firstBlock, nextBlock)` plus the end sentinel (no gaps). -/
theorem storeOps_preserve_inv (c : BlockCache) (height startHeight : Int)
    (b : CompactBlock) (hc : CacheInv c) :
    CacheInv (c.Add height b).2 ∧ CacheInv (c.Reorg height) ∧
    CacheInv (c.Reset startHeight) ∧ CacheInv (c.setDbFiles height) :=
  ⟨add_inv c height b hc, reorg_inv c height hc,
   reset_inv c startHeight hc, setDbFiles_inv c height hc⟩

/-- C5 witness: the four operations applied to the one-block sample store. -/
theorem storeOps_preserve_inv_witness :
    CacheInv sampleCorrupt ∧
    (CacheInv (sampleCorrupt.Add 0 sampleBlock).2 ∧ CacheInv (sampleCorrupt.Reorg 0) ∧
     CacheInv (sampleCorrupt.Reset 7) ∧ CacheInv (sampleCorrupt.setDbFiles 0)) :=
  ⟨by decide, storeOps_preserve_inv sampleCorrupt 0 7 sampleBlock (by decide)⟩

/-! ## Claim C4: corruption recovery on the read path -/

theorem checksum_length (height : Int) (b : List Nat) : (checksum height b).length = 8 := rfl

theorem readAt_append (file ext : List Nat) (off n : Int)
    (h0 : 0 ≤ off) (hn : 0 ≤ n) (hle : off + n ≤ (file.length : Int)) :
    readAt (file ++ ext) off n = readAt file off n := by
  unfold readAt
  rw [if_pos ⟨h0, hn, by simp; omega⟩, if_pos ⟨h0, hn, hle⟩]
  have hdrop : (file ++ ext).drop off.toNat = file.drop off.toNat ++ ext :=
    List.drop_append_of_le_length (by omega)
  rw [hdrop, List.take_append_of_le_length]
  rw [List.length_drop]
  omega

theorem getD_append_lt (l l' : List Int) (i : Nat) (h : i < l.length) :
    (l ++ l').getD i 0 = l.getD i 0 := by
  rw [List.getD_eq_get?, List.getD_eq_get?, List.get?_append h]

theorem getD_concat_length (l : List Int) (x : Int) :
    (l ++ [x]).getD l.length 0 = x := by
  rw [List.getD_eq_get?, List.get?_concat_length]
  rfl

/-- The explicit result of an accepted `Add` at the append point. -/
theorem add_stored (c : BlockCache) (b : CompactBlock)
    (hfb : c.firstBlock ≤ c.nextBlock) (hh : goIntOfUint64 b.height = c.nextBlock) :
    c.Add c.nextBlock b = (.stored,
      { c with
        blocksFile := c.blocksFile ++ (checksum c.nextBlock (marshal b) ++ marshal b),
        lengthsFile := c.lengthsFile ++ uint32LE ((marshal b).length % 2 ^ 32),
        starts := c.starts ++
          [c.starts.getD (c.starts.length - 1) 0 + (((marshal b).length : Int) + 8)],
        latestHash := some (match c.latestHash with
          | none => b.hash
          | some old => goCopy old b.hash),
        nextBlock := c.nextBlock + 1 }) := by
  rw [BlockCache.Add, if_neg (by omega), if_neg (by omega), if_neg (by omega),
    if_neg (fun hne => hne hh)]

/-- A successful `readBlock` always returns a block whose self-reported
height is the requested height (the code rejects a mismatch). -/
theorem readBlock_some (d : BlockCache) (x : Int) (blk : CompactBlock)
    (h : d.readBlock x = some blk) : goIntOfUint64 blk.height = x := by
  unfold BlockCache.readBlock at h
  dsimp only at h
  split at h
  · exact Option.noConfusion h
  · split at h
    · exact Option.noConfusion h
    · split at h
      · exact Option.noConfusion h
      · split at h
        · exact Option.noConfusion h
        · rename_i hguard
          cases Option.some.inj h
          exact not_not.mp hguard

/-- Reading back the block just written by `Add` yields exactly that block. -/
theorem add_readBlock (c : BlockCache) (b : CompactBlock)
    (hinv : StoreInv c) (hwf : b.WF) (hh : goIntOfUint64 b.height = c.nextBlock) :
    (c.Add c.nextBlock b).2.readBlock c.nextBlock = some b := by
  obtain ⟨h1, h2, h3, h4, h5⟩ := hinv
  rw [add_stored c b h1 hh]
  dsimp only
  have hidx : (c.nextBlock - c.firstBlock).toNat = c.starts.length - 1 := by omega
  have hlenpos : 1 ≤ c.starts.length := by omega
  -- the two relevant index entries of the extended offset array
  have hS : (c.starts ++
        [c.starts.getD (c.starts.length - 1) 0 + (((marshal b).length : Int) + 8)]).getD
        (c.nextBlock - c.firstBlock).toNat 0 = (c.blocksFile.length : Int) := by
    rw [hidx, getD_append_lt _ _ _ (by omega), h5]
  have hS1 : (c.starts ++
        [c.starts.getD (c.starts.length - 1) 0 + (((marshal b).length : Int) + 8)]).getD
        ((c.nextBlock - c.firstBlock).toNat + 1) 0
      = (c.blocksFile.length : Int) + (((marshal b).length : Int) + 8) := by
    have : (c.nextBlock - c.firstBlock).toNat + 1 = c.starts.length := by omega
    rw [this, ← h5]
    exact getD_concat_length _ _
  have hbl : ({ c with
        blocksFile := c.blocksFile ++ (checksum c.nextBlock (marshal b) ++ marshal b),
        lengthsFile := c.lengthsFile ++ uint32LE ((marshal b).length % 2 ^ 32),
        starts := c.starts ++
          [c.starts.getD (c.starts.length - 1) 0 + (((marshal b).length : Int) + 8)],
        latestHash := some (match c.latestHash with
          | none => b.hash
          | some old => goCopy old b.hash),
        nextBlock := c.nextBlock + 1 } : BlockCache).blockLength c.nextBlock
      = ((marshal b).length : Int) := by
    unfold BlockCache.blockLength
    rw [if_neg (by dsimp only; omega)]
    dsimp only
    rw [hS, hS1]
    ring
  unfold BlockCache.readBlock
  dsimp only
  rw [hbl, hS]
  have hread : readAt (c.blocksFile ++ (checksum c.nextBlock (marshal b) ++ marshal b))
        (c.blocksFile.length : Int) (((marshal b).length : Int) + 8)
      = some (checksum c.nextBlock (marshal b) ++ marshal b) := by
    unfold readAt
    rw [if_pos ⟨by omega, by omega, by simp [checksum_length]; omega⟩]
    have hd : (c.blocksFile ++ (checksum c.nextBlock (marshal b) ++ marshal b)).drop
          ((c.blocksFile.length : Int)).toNat
        = checksum c.nextBlock (marshal b) ++ marshal b := by
      rw [show ((c.blocksFile.length : Int)).toNat = c.blocksFile.length from by omega]
      exact List.drop_left _ _
    rw [hd, List.take_of_length_le]
    rw [List.length_append, checksum_length]
    omega
  rw [hread]
  dsimp only
  have hcs : (checksum c.nextBlock (marshal b) ++ marshal b).take 8
      = checksum c.nextBlock (marshal b) := List.take_left' (checksum_length _ _)
  have hpayload : ((checksum c.nextBlock (marshal b) ++ marshal b).drop 8).take
        (((marshal b).length : Int)).toNat = marshal b := by
    rw [List.drop_left' (checksum_length _ _)]
    rw [show (((marshal b).length : Int)).toNat = (marshal b).length from by omega]
    exact List.take_length ..
  rw [hcs, hpayload]
  rw [if_neg (fun hne => hne rfl)]
  rw [unmarshal_marshal b hwf]
  dsimp only
  rw [if_neg (fun hne => hne hh)]

/-- `Add` appends past the end of the files, so reads of every previously
stored height return exactly what they returned before. -/
theorem add_readBlock_preserved (c : BlockCache) (b : CompactBlock) (h' : Int)
    (hinv : StoreInv c) (hh : goIntOfUint64 b.height = c.nextBlock)
    (hge : c.firstBlock ≤ h') (hlt : h' < c.nextBlock) :
    (c.Add c.nextBlock b).2.readBlock h' = c.readBlock h' := by
  obtain ⟨h1, h2, h3, h4, h5⟩ := hinv
  rw [add_stored c b h1 hh]
  dsimp only
  have hidx1 : (h' - c.firstBlock).toNat + 1 < c.starts.length := by omega
  have e1 : (c.starts ++
        [c.starts.getD (c.starts.length - 1) 0 + (((marshal b).length : Int) + 8)]).getD
        (h' - c.firstBlock).toNat 0 = c.starts.getD (h' - c.firstBlock).toNat 0 :=
    getD_append_lt _ _ _ (by omega)
  have e2 : (c.starts ++
        [c.starts.getD (c.starts.length - 1) 0 + (((marshal b).length : Int) + 8)]).getD
        ((h' - c.firstBlock).toNat + 1) 0
      = c.starts.getD ((h' - c.firstBlock).toNat + 1) 0 :=
    getD_append_lt _ _ _ hidx1
  have hblc : c.blockLength h' = c.starts.getD ((h' - c.firstBlock).toNat + 1) 0
      - c.starts.getD (h' - c.firstBlock).toNat 0 - 8 := by
    unfold BlockCache.blockLength
    rw [if_neg (by omega)]
  have hbl : ({ c with
        blocksFile := c.blocksFile ++ (checksum c.nextBlock (marshal b) ++ marshal b),
        lengthsFile := c.lengthsFile ++ uint32LE ((marshal b).length % 2 ^ 32),
        starts := c.starts ++
          [c.starts.getD (c.starts.length - 1) 0 + (((marshal b).length : Int) + 8)],
        latestHash := some (match c.latestHash with
          | none => b.hash
          | some old => goCopy old b.hash),
        nextBlock := c.nextBlock + 1 } : BlockCache).blockLength h'
      = c.blockLength h' := by
    unfold BlockCache.blockLength
    rw [if_neg (by dsimp only; omega), if_neg (by omega)]
    dsimp only
    rw [e1, e2]
  have hoff0 : 0 ≤ c.starts.getD (h' - c.firstBlock).toNat 0 :=
    getD_nonneg_of_head_zero h3 h4 (by omega)
  have hmono1 : c.starts.getD (h' - c.firstBlock).toNat 0
      ≤ c.starts.getD ((h' - c.firstBlock).toNat + 1) 0 :=
    pairwise_getD_mono h4 (by omega) hidx1
  have hlast : c.starts.getD ((h' - c.firstBlock).toNat + 1) 0
      ≤ (c.blocksFile.length : Int) := by
    rw [← h5]
    exact pairwise_getD_mono h4 (by omega) (by omega)
  have hra : readAt (c.blocksFile ++ (checksum c.nextBlock (marshal b) ++ marshal b))
        (c.starts.getD (h' - c.firstBlock).toNat 0) (c.blockLength h' + 8)
      = readAt c.blocksFile
        (c.starts.getD (h' - c.firstBlock).toNat 0) (c.blockLength h' + 8) :=
    readAt_append _ _ _ _ hoff0 (by omega) (by omega)
  unfold BlockCache.readBlock
  dsimp only
  rw [hbl, e1, hra]

/-- C3: (a) `Get(h)` outside `[firstBlock, nextBlock)` is absent without
error (no state change); (b) a successful in-range read always yields a
record whose self-reported height equals `h`, which `Get` returns unchanged;
(c) after an accepted `Add` of a well-formed block at the append point, the
stored payload reads back byte-for-byte (the very block appears at
`Get(nextBlock)`), while every previously stored height reads back exactly
as before — together: absent corruption, `Get(h)` round-trips what `Add`
wrote. -/
theorem get_roundtrip (c : BlockCache) (b : CompactBlock) (h' : Int)
    (hinv : StoreInv c) (hwf : b.WF) (hh : goIntOfUint64 b.height = c.nextBlock) :
    (∀ (d : BlockCache) (x : Int), x < d.firstBlock ∨ x ≥ d.nextBlock →
      d.Get x = (none, d)) ∧
    (∀ (d : BlockCache) (x : Int) (blk : CompactBlock), d.readBlock x = some blk →
      goIntOfUint64 blk.height = x ∧
      (d.firstBlock ≤ x → x < d.nextBlock → d.Get x = (some blk, d))) ∧
    (c.Add c.nextBlock b).1 = .stored ∧
    (c.Add c.nextBlock b).2.readBlock c.nextBlock = some b ∧
    (c.Add c.nextBlock b).2.Get c.nextBlock = (some b, (c.Add c.nextBlock b).2) ∧
    (c.firstBlock ≤ h' → h' < c.nextBlock →
      (c.Add c.nextBlock b).2.readBlock h' = c.readBlock h') := by
  have hfb : c.firstBlock ≤ c.nextBlock := hinv.1
  refine ⟨?_, ?_, ?_, ?_, ?_, ?_⟩
  · intro d x hx
    rw [BlockCache.Get, if_pos hx]
  · intro d x blk hsome
    refine ⟨readBlock_some d x blk hsome, fun hxa hxb => ?_⟩
    rw [BlockCache.Get, if_neg (by omega), hsome]
  · rw [add_stored c b hfb hh]
  · exact add_readBlock c b hinv hwf hh
  · have hr := add_readBlock c b hinv hwf hh
    have hbounds : ¬ (c.nextBlock < (c.Add c.nextBlock b).2.firstBlock ∨
        c.nextBlock ≥ (c.Add c.nextBlock b).2.nextBlock) := by
      rw [add_stored c b hfb hh]
      dsimp only
      omega
    rw [BlockCache.Get, if_neg hbounds, hr]
  · intro hge hlt
    exact add_readBlock_preserved c b h' hinv hh hge hlt

/-- C3 witness: the empty sample store at height 5 accepts a block for
height 5 which then reads back identically. -/
theorem get_roundtrip_witness :
    (StoreInv sampleCache ∧ CompactBlock.WF ⟨5, [1, 2], []⟩ ∧
     goIntOfUint64 (5 : Nat) = sampleCache.nextBlock) ∧
    ((∀ (d : BlockCache) (x : Int), x < d.firstBlock ∨ x ≥ d.nextBlock →
        d.Get x = (none, d)) ∧
     (∀ (d : BlockCache) (x : Int) (blk : CompactBlock), d.readBlock x = some blk →
        goIntOfUint64 blk.height = x ∧
        (d.firstBlock ≤ x → x < d.nextBlock → d.Get x = (some blk, d))) ∧
     (sampleCache.Add sampleCache.nextBlock ⟨5, [1, 2], []⟩).1 = .stored ∧
     (sampleCache.Add sampleCache.nextBlock ⟨5, [1, 2], []⟩).2.readBlock sampleCache.nextBlock
        = some ⟨5, [1, 2], []⟩ ∧
     (sampleCache.Add sampleCache.nextBlock ⟨5, [1, 2], []⟩).2.Get sampleCache.nextBlock
        = (some ⟨5, [1, 2], []⟩, (sampleCache.Add sampleCache.nextBlock ⟨5, [1, 2], []⟩).2) ∧
     (sampleCache.firstBlock ≤ 0 → (0 : Int) < sampleCache.nextBlock →
       (sampleCache.Add sampleCache.nextBlock ⟨5, [1, 2], []⟩).2.readBlock 0
          = sampleCache.readBlock 0)) :=
  ⟨⟨by decide, by decide, by decide⟩,
   get_roundtrip sampleCache ⟨5, [1, 2], []⟩ 0 (by decide) (by decide) (by decide)⟩
